import Mathlib

/-
Shallow embedding of the sentence-splitting core of swe-pipeline.py:
the tokenizer regular expression `tokenizer_re`, the abbreviation
resolver `join_abbrevs` and the sentence grouper `group_sentences`.

A token is a list of characters; the sentinel `None` that the pipeline
uses both for paragraph breaks and for sentence breaks is the value
`none` of `Option`.  Generators over finite inputs are modelled as
functions on lists; a `StopIteration` raised by a peek past the end of
the input terminates the current match attempt (in the lookahead loop)
or the whole generator (in the sentence-boundary peek), exactly as the
generator protocol the source relies on behaves.  The bounded loops of
the source are given explicit fuel; every caller passes enough fuel
for the loop to run exactly as long as the source's loop does.
-/

set_option maxRecDepth 8000

/-- A raw token: the pipeline's tokens are strings. -/
abbrev Strg : Type := List Char

/-- An item of the token stream: `none` is the marker `None`. -/
abbrev Tok : Type := Option Strg

/-- The abbreviation table `ABBREVS`: a mapping from a key (a sequence
of literal tokens) to its canonical replacement string. -/
abbrev Tbl : Type := List (List Strg × Strg)

/-- Convenience: the character list of a string literal. -/
def cls (s : String) : List Char := s.toList

/-- Python's `\w` (with `re.UNICODE`), restricted to the Basic Latin
and Latin-1 repertoire that the pipeline's data uses: ASCII
alphanumerics, the underscore, and the Latin-1 letters. -/
def isWordChar (c : Char) : Bool :=
  c.isAlphanum || c == '_' ||
    (decide (0xC0 ≤ c.toNat) && decide (c.toNat ≤ 0xD6)) ||
    (decide (0xD8 ≤ c.toNat) && decide (c.toNat ≤ 0xF6)) ||
    (decide (0xF8 ≤ c.toNat) && decide (c.toNat ≤ 0xFF))

/-- Python's `\s` on the ASCII repertoire: space, tab, newline,
carriage return, vertical tab and form feed. -/
def isSpaceChar (c : Char) : Bool :=
  c == ' ' || c == '\t' || c == '\n' || c == '\r' ||
    c == '\x0b' || c == '\x0c'

/-- Python's `str.isupper` on one character, restricted to Basic Latin
and Latin-1: used for the first character of the next token in the
sentence-boundary heuristic. -/
def isUpperChar (c : Char) : Bool :=
  c.isUpper ||
    (decide (0xC0 ≤ c.toNat) && decide (c.toNat ≤ 0xD6)) ||
    (decide (0xD8 ≤ c.toNat) && decide (c.toNat ≤ 0xDE))

/-- The separator class `[\s:/,.-]` of the numeric-expression rule. -/
def isSepChar (c : Char) : Bool :=
  isSpaceChar c || c == ':' || c == '/' || c == ',' || c == '.' || c == '-'

/-- The star `(?:(?=[^/])\S\w+)*` of the word-like rule: repeatedly
glue one character that is neither `/` nor whitespace, followed by a
nonempty run of word characters.  Each iteration consumes at least two
characters, so fuel equal to the input length is always enough. -/
def wordGlueF : Nat → List Char → List Char × List Char
  | 0, l => ([], l)
  | _ + 1, [] => ([], [])
  | f + 1, c :: t =>
    if c = '/' ∨ isSpaceChar c = true then ([], c :: t)
    else
      match t.takeWhile isWordChar with
      | [] => ([], c :: t)
      | _ :: _ =>
        let p := wordGlueF f (t.dropWhile isWordChar)
        (c :: (t.takeWhile isWordChar ++ p.1), p.2)

/-- The star `(?:[\s:/,.-]\d+)*` of the numeric-expression rule:
repeatedly glue one separator character followed by a nonempty digit
run. -/
def numGlueF : Nat → List Char → List Char × List Char
  | 0, l => ([], l)
  | _ + 1, [] => ([], [])
  | f + 1, c :: t =>
    if isSepChar c = true then
      match t.takeWhile Char.isDigit with
      | [] => ([], c :: t)
      | _ :: _ =>
        let p := numGlueF f (t.dropWhile Char.isDigit)
        (c :: (t.takeWhile Char.isDigit ++ p.1), p.2)
    else ([], c :: t)

/-- Alternative 1 of `tokenizer_re`: `\w+(?:(?=[^/])\S\w+)*-?`.
Greedy and deterministic: nothing after an optional part can fail, so
the regex engine never backtracks here. -/
def matchWord (cs : List Char) : List Char × List Char :=
  let w := cs.takeWhile isWordChar
  let p := wordGlueF cs.length (cs.dropWhile isWordChar)
  if p.2.head? = some '-' then (w ++ p.1 ++ ['-'], p.2.tail)
  else (w ++ p.1, p.2)

/-- Alternative 2 of `tokenizer_re`: `[+.]?\d+(?:[\s:/,.-]\d+)*`. -/
def matchNum (cs : List Char) : Option (List Char × List Char) :=
  match cs with
  | [] => none
  | c :: t =>
    if c.isDigit then
      let p := numGlueF cs.length (cs.dropWhile Char.isDigit)
      some (cs.takeWhile Char.isDigit ++ p.1, p.2)
    else if c = '+' ∨ c = '.' then
      match t.takeWhile Char.isDigit with
      | [] => none
      | _ :: _ =>
        let p := numGlueF cs.length (t.dropWhile Char.isDigit)
        some (c :: (t.takeWhile Char.isDigit ++ p.1), p.2)
    else none

/-- Alternative 3 of `tokenizer_re`: the paragraph break
`\n(\s*\n)+`.  Greedily this matches the newline and then the longest
prefix of the following whitespace run that ends in a newline,
provided that prefix is nonempty. -/
def matchPara (cs : List Char) : Option (List Char × List Char) :=
  match cs with
  | [] => none
  | c :: t =>
    if c = '\n' then
      let ws := t.takeWhile isSpaceChar
      let r := t.dropWhile isSpaceChar
      let rv := ws.reverse.dropWhile (fun d => d != '\n')
      if rv.isEmpty then none
      else some (c :: rv.reverse,
        (ws.reverse.takeWhile (fun d => d != '\n')).reverse ++ r)
    else none

/-- Alternative 4 of `tokenizer_re`: `(?P<char>\S)(?P=char)+`, a run
of at least two copies of the same non-space character. -/
def matchRep (cs : List Char) : Option (List Char × List Char) :=
  match cs with
  | [] => none
  | c :: t =>
    match t.takeWhile (· == c) with
    | [] => none
    | _ :: _ => some (c :: t.takeWhile (· == c), t.dropWhile (· == c))

/-- One match of `tokenizer_re` at the current position: the
alternatives are tried in the order they appear in the pattern, and
the result carries the matched span, the remaining input, and whether
the span was the paragraph-break group.  `none` means no alternative
matches here, which happens exactly on whitespace that does not start
a paragraph break. -/
def matchAt (cs : List Char) : Option (List Char × List Char × Bool) :=
  match cs with
  | [] => none
  | c :: t =>
    if isWordChar c then
      some ((matchWord cs).1, (matchWord cs).2, false)
    else
      match matchNum cs with
      | some (s, r) => some (s, r, false)
      | none =>
        match matchPara cs with
        | some (s, r) => some (s, r, true)
        | none =>
          if isSpaceChar c then none
          else
            match matchRep cs with
            | some (s, r) => some (s, r, false)
            | none => some ([c], t, false)

/-- `re.finditer` over the whole input: at each position emit the
match if the pattern matches, otherwise skip one character.  Each step
consumes at least one character, so fuel equal to the input length is
always enough. -/
def scanRawF : Nat → List Char → List (List Char × Bool)
  | 0, _ => []
  | _ + 1, [] => []
  | f + 1, cs =>
    match matchAt cs with
    | some (s, r, p) => (s, p) :: scanRawF f r
    | none => scanRawF f cs.tail

/-- The spans of `tokenize`, each tagged with whether it is a
paragraph break. -/
def tokenizeSpans (cs : List Char) : List (List Char × Bool) :=
  scanRawF cs.length cs

/-- `tokenize`: paragraph-break matches are emitted as the marker
`none`, every other match as its matched text. -/
def tokenize (cs : List Char) : List Tok :=
  (tokenizeSpans cs).map (fun sp => if sp.2 then none else some sp.1)

/-- `allSome ts = some ss` iff the candidate items `ts` are all plain
tokens `ss`; a candidate containing the marker `None` is never a
member of the prefix set, whose elements are tuples of strings. -/
def allSome : List Tok → Option (List Strg)
  | [] => some []
  | none :: _ => none
  | some s :: ts => (allSome ts).map (s :: ·)

/-- Membership of a nonempty token sequence in `abbrev_prefixes`, the
set of all nonempty prefixes of keys of the table. -/
def inPrefixSet (tbl : Tbl) (p : List Strg) : Bool :=
  !p.isEmpty && tbl.any (fun kv => p.isPrefixOf kv.1)

/-- `candidate in abbrevs`: the sequence is exactly a key. -/
def isKey (tbl : Tbl) (k : List Strg) : Bool :=
  tbl.any (fun kv => kv.1 == k)

/-- `abbrevs[candidate]`: the canonical replacement of a key. -/
def lookupRepl (tbl : Tbl) (k : List Strg) : Strg :=
  match tbl.find? (fun kv => kv.1 == k) with
  | some kv => kv.2
  | none => []

/-- `max_abbrev_length`: the longest key length (0 for the empty
table). -/
def maxKeyLen (tbl : Tbl) : Nat :=
  tbl.foldr (fun kv m => max kv.1.length m) 0

/-- The lookahead loop `for i in range(max_abbrev_length)` of
`join_abbrevs`, started at `i = 0` with fuel `max_abbrev_length`.
At step `i` it peeks `i + 1` items (a peek past the end of the input
raises `StopIteration`, caught as a break), forms the candidate
`(token,) + peeked`, breaks if the candidate is not in the prefix set,
and if the candidate is a key either discards it (the sentence-final
override, comparing the trigger token with `"."` and the last peeked
item with `None`) or returns it at once. -/
def scanLoop (tbl : Tbl) (s : Strg) (rest : List Tok) : Nat → Nat → Option (List Strg)
  | _, 0 => none
  | i, fuel + 1 =>
    if i + 1 ≤ rest.length then
      match allSome (rest.take (i + 1)) with
      | none => none
      | some peeked =>
        if inPrefixSet tbl (s :: peeked) = false then none
        else if isKey tbl (s :: peeked) then
          if s = ['.'] ∧ rest.getD i none = none then none
          else some (s :: peeked)
        else scanLoop tbl s rest (i + 1) fuel
    else none

/-- `token[-1] in ".:!?"` (false for the empty string, which no token
of the tokenizer is). -/
def isPunctLast (t : Strg) : Bool :=
  match t.getLast? with
  | some c => c == '.' || c == ':' || c == '!' || c == '?'
  | none => false

/-- `next_token[0].isupper()` (false for the empty string). -/
def isUpperFirst (t : Strg) : Bool :=
  match t.head? with
  | some c => isUpperChar c
  | none => false

/-- The sentence-boundary heuristic of `join_abbrevs`:
`None not in (token, next_token) and (not was_abbrev) and
token[-1] in ".:!?" and next_token[0].isupper()`. -/
def sbFlag (w : Bool) (tok next : Tok) : Bool :=
  match tok, next with
  | some t, some n => !w && isPunctLast t && isUpperFirst n
  | _, _ => false

/-- The loop body of `join_abbrevs`.  The `Bool` argument is
`was_abbrev`.  When the head token starts a prefix of some key, the
lookahead loop runs; on a match the consumed items are skipped and the
canonical replacement emitted with `was_abbrev` set, and on no match
the token is emitted with neither the sentence-boundary check nor a
reset of `was_abbrev`.  Otherwise the token is emitted, the single
next item is peeked (a peek past the end of the input ends the
generator, the token having already been emitted), the heuristic may
emit the `None` marker, and `was_abbrev` is reset.  Each iteration
consumes at least one input item, so fuel equal to the input length is
always enough. -/
def resolveF (tbl : Tbl) : Nat → Bool → List Tok → List Tok
  | 0, _, _ => []
  | _ + 1, _, [] => []
  | fuel + 1, w, tok :: rest =>
    match tok with
    | some s =>
      if inPrefixSet tbl [s] then
        match scanLoop tbl s rest 0 (maxKeyLen tbl) with
        | some key =>
          some (lookupRepl tbl key) ::
            resolveF tbl fuel true (rest.drop (key.length - 1))
        | none => some s :: resolveF tbl fuel w rest
      else
        some s ::
          (match rest.head? with
          | none => []
          | some next =>
            if sbFlag w (some s) next then none :: resolveF tbl fuel false rest
            else resolveF tbl fuel false rest)
    | none =>
      none ::
        (match rest.head? with
        | none => []
        | some next =>
          if sbFlag w none next then none :: resolveF tbl fuel false rest
          else resolveF tbl fuel false rest)

/-- `join_abbrevs abbrevs tokens`, with `was_abbrev` initially
false. -/
def joinAbbrevs (tbl : Tbl) (ts : List Tok) : List Tok :=
  resolveF tbl ts.length false ts

/-- The accumulator loop of `group_sentences`. -/
def groupGo : List Strg → List Tok → List (List Strg)
  | acc, [] => if acc.isEmpty then [] else [acc]
  | acc, none :: rest =>
    if acc.isEmpty then groupGo [] rest else acc :: groupGo [] rest
  | acc, some t :: rest => groupGo (acc ++ [t]) rest

/-- `group_sentences tokens`. -/
def groupSentences (ts : List Tok) : List (List Strg) :=
  groupGo [] ts

/-- The full core pipeline: Lexer, then Resolver, then Grouper. -/
def pipeline (tbl : Tbl) (cs : List Char) : List (List Strg) :=
  groupSentences (joinAbbrevs tbl (tokenize cs))

/-- Interleaving of gaps and matched spans: `g₀ s₀ g₁ s₁ … gₙ`. -/
def interleave : List (List Char) → List (List Char) → List Char
  | [], _ => []
  | g :: _, [] => g
  | g :: gs, s :: ss => g ++ s ++ interleave gs ss

/-- The key `k` matches the front of the stream: the trigger token is
`s` and the remaining key tokens are the next items of `rest`. -/
def matchesFrontB (s : Strg) (rest : List Tok) (k : List Strg) : Bool :=
  match k with
  | [] => false
  | s0 :: t => s0 == s && (t.map some).isPrefixOf rest

/-- How one emitted item of the resolver accounts for a chunk of the
input: a passthrough item accounts for itself, an inserted
sentence-break marker for nothing, and a folded abbreviation for the
full matched key. -/
def chunkRel (tbl : Tbl) (c : List Tok) (o : Tok) : Prop :=
  c = [o] ∨ (c = [] ∧ o = none) ∨
    ∃ k, isKey tbl k = true ∧ c = k.map some ∧ o = some (lookupRepl tbl k)

/-- The sentence-boundary heuristic with the abbreviation-suppression
flag permanently false, as it is under an empty table. -/
def sbPure (tok next : Tok) : Bool :=
  match tok, next with
  | some t, some n => isPunctLast t && isUpperFirst n
  | _, _ => false

/-- Modelled from the spec (§7, "Empty abbreviation table"): the
Resolver as a pure passthrough plus the sentence-boundary heuristic,
for comparison with `joinAbbrevs` on the empty table. -/
def specResolverEmptyTable : List Tok → List Tok
  | [] => []
  | [t] => [t]
  | t :: next :: rest =>
    if sbPure t next then t :: none :: specResolverEmptyTable (next :: rest)
    else t :: specResolverEmptyTable (next :: rest)

/-- The table of the abbreviation-suppression examples:
`("Dr", ".") ↦ "Dr."`. -/
def drTbl : Tbl := [([cls "Dr", cls "."], cls "Dr.")]

/-- A table with two keys sharing a prefix, the shorter a proper
prefix of the longer. -/
def nestedTbl : Tbl :=
  [([cls "t", cls "."], cls "t."),
   ([cls "t", cls ".", cls "ex", cls "."], cls "t.ex.")]

/-- A table whose only key starts with a token that ends in a period,
so that the token is a prefix hit yet no key matches a stream that
continues differently. -/
def hejTbl : Tbl := [([cls "Hej.", cls "X"], cls "HX")]

/-! ### Lexer: coverage of the input -/

theorem wordGlueF_append : ∀ (fuel : Nat) (l : List Char),
    (wordGlueF fuel l).1 ++ (wordGlueF fuel l).2 = l := by
  intro fuel
  induction fuel with
  | zero => intro l; simp [wordGlueF]
  | succ f ih =>
    intro l
    cases l with
    | nil => simp [wordGlueF]
    | cons c t =>
      simp only [wordGlueF]
      split
      · simp
      · split
        · simp
        · simp only [List.cons_append, List.append_assoc, ih,
            List.takeWhile_append_dropWhile]

theorem numGlueF_append : ∀ (fuel : Nat) (l : List Char),
    (numGlueF fuel l).1 ++ (numGlueF fuel l).2 = l := by
  intro fuel
  induction fuel with
  | zero => intro l; simp [numGlueF]
  | succ f ih =>
    intro l
    cases l with
    | nil => simp [numGlueF]
    | cons c t =>
      simp only [numGlueF]
      split
      · split
        · simp
        · simp only [List.cons_append, List.append_assoc, ih,
            List.takeWhile_append_dropWhile]
      · simp

theorem matchWord_append (cs : List Char) :
    (matchWord cs).1 ++ (matchWord cs).2 = cs := by
  have hg := wordGlueF_append cs.length (cs.dropWhile isWordChar)
  simp only [matchWord]
  split
  · next hh =>
    have h2 : (wordGlueF cs.length (cs.dropWhile isWordChar)).2 =
        '-' :: (wordGlueF cs.length (cs.dropWhile isWordChar)).2.tail := by
      cases hc : (wordGlueF cs.length (cs.dropWhile isWordChar)).2 with
      | nil => rw [hc] at hh; simp at hh
      | cons d r => rw [hc] at hh; simp at hh; simp [hh]
    rw [h2] at hg
    simp only [List.append_assoc, List.singleton_append]
    rw [hg, List.takeWhile_append_dropWhile]
  · simp only [List.append_assoc]
    rw [hg, List.takeWhile_append_dropWhile]

theorem matchWord_ne_nil (c : Char) (t : List Char) (h : isWordChar c = true) :
    (matchWord (c :: t)).1 ≠ [] := by
  simp only [matchWord, List.takeWhile_cons, h, if_true]
  split <;> simp

theorem matchNum_spec (cs : List Char) (s r : List Char)
    (h : matchNum cs = some (s, r)) : s ++ r = cs ∧ s ≠ [] := by
  cases cs with
  | nil => simp [matchNum] at h
  | cons c t =>
    simp only [matchNum] at h
    split at h
    · next hd =>
      simp only [Option.some.injEq, Prod.mk.injEq] at h
      obtain ⟨hs, hr⟩ := h
      subst hs; subst hr
      constructor
      · rw [List.append_assoc, numGlueF_append, List.takeWhile_append_dropWhile]
      · simp [List.takeWhile_cons, hd]
    · split at h
      · next hsign =>
        split at h
        · exact absurd h (by simp)
        · simp only [Option.some.injEq, Prod.mk.injEq] at h
          obtain ⟨hs, hr⟩ := h
          subst hs; subst hr
          refine ⟨?_, by simp⟩
          simp only [List.cons_append, List.append_assoc, numGlueF_append,
            List.takeWhile_append_dropWhile]
      · exact absurd h (by simp)

theorem matchPara_spec (cs : List Char) (s r : List Char)
    (h : matchPara cs = some (s, r)) : s ++ r = cs ∧ s ≠ [] := by
  cases cs with
  | nil => simp [matchPara] at h
  | cons c t =>
    simp only [matchPara] at h
    split at h
    · next hc =>
      split at h
      · exact absurd h (by simp)
      · simp only [Option.some.injEq, Prod.mk.injEq] at h
        obtain ⟨hs, hr⟩ := h
        subst hs; subst hr
        refine ⟨?_, by simp⟩
        have h1 : (t.takeWhile isSpaceChar).reverse.takeWhile (fun d => d != '\n') ++
            (t.takeWhile isSpaceChar).reverse.dropWhile (fun d => d != '\n') =
            (t.takeWhile isSpaceChar).reverse :=
          List.takeWhile_append_dropWhile _ _
        simp only [List.cons_append, List.cons.injEq, true_and]
        calc ((t.takeWhile isSpaceChar).reverse.dropWhile (fun d => d != '\n')).reverse ++
              (((t.takeWhile isSpaceChar).reverse.takeWhile (fun d => d != '\n')).reverse ++
                t.dropWhile isSpaceChar)
            = (((t.takeWhile isSpaceChar).reverse.takeWhile (fun d => d != '\n')) ++
                ((t.takeWhile isSpaceChar).reverse.dropWhile (fun d => d != '\n'))).reverse ++
                t.dropWhile isSpaceChar := by
              rw [List.reverse_append]; simp [List.append_assoc]
          _ = t := by rw [h1, List.reverse_reverse, List.takeWhile_append_dropWhile]
    · exact absurd h (by simp)

theorem matchRep_spec (cs : List Char) (s r : List Char)
    (h : matchRep cs = some (s, r)) : s ++ r = cs ∧ s ≠ [] := by
  cases cs with
  | nil => simp [matchRep] at h
  | cons c t =>
    simp only [matchRep] at h
    split at h
    · exact absurd h (by simp)
    · simp only [Option.some.injEq, Prod.mk.injEq] at h
      obtain ⟨hs, hr⟩ := h
      subst hs; subst hr
      exact ⟨by simp [List.takeWhile_append_dropWhile], by simp⟩

theorem matchAt_spec (cs : List Char) (s r : List Char) (p : Bool)
    (h : matchAt cs = some (s, r, p)) : s ++ r = cs ∧ s ≠ [] := by
  cases cs with
  | nil => simp [matchAt] at h
  | cons c t =>
    simp only [matchAt] at h
    split at h
    · next hw =>
      simp only [Option.some.injEq, Prod.mk.injEq] at h
      obtain ⟨hs, hr, _⟩ := h
      subst hs; subst hr
      exact ⟨matchWord_append _, matchWord_ne_nil c t hw⟩
    · split at h
      · next s' r' hnum =>
        simp only [Option.some.injEq, Prod.mk.injEq] at h
        obtain ⟨hs, hr, _⟩ := h
        subst hs; subst hr
        exact matchNum_spec _ _ _ hnum
      · split at h
        · next s' r' hpara =>
          simp only [Option.some.injEq, Prod.mk.injEq] at h
          obtain ⟨hs, hr, _⟩ := h
          subst hs; subst hr
          exact matchPara_spec _ _ _ hpara
        · split at h
          · exact absurd h (by simp)
          · split at h
            · next s' r' hrep =>
              simp only [Option.some.injEq, Prod.mk.injEq] at h
              obtain ⟨hs, hr, _⟩ := h
              subst hs; subst hr
              exact matchRep_spec _ _ _ hrep
            · simp only [Option.some.injEq, Prod.mk.injEq] at h
              obtain ⟨hs, hr, _⟩ := h
              subst hs; subst hr
              exact ⟨rfl, by simp⟩

theorem matchAt_none (c : Char) (t : List Char)
    (h : matchAt (c :: t) = none) : isSpaceChar c = true := by
  simp only [matchAt] at h
  split at h
  · exact absurd h (by simp)
  · split at h
    · exact absurd h (by simp)
    · split at h
      · exact absurd h (by simp)
      · split at h
        · assumption
        · split at h <;> exact absurd h (by simp)

theorem interleave_cons (c : Char) (g : List Char) (gs ss : List (List Char)) :
    interleave ((c :: g) :: gs) ss = c :: interleave (g :: gs) ss := by
  cases ss <;> simp [interleave]

theorem scanRawF_cover : ∀ (fuel : Nat) (cs : List Char), cs.length ≤ fuel →
    ∃ gaps : List (List Char),
      gaps.length = (scanRawF fuel cs).length + 1 ∧
      (∀ g ∈ gaps, ∀ c ∈ g, isSpaceChar c = true) ∧
      interleave gaps ((scanRawF fuel cs).map Prod.fst) = cs ∧
      ∀ sp ∈ scanRawF fuel cs, sp.1 ≠ [] := by
  intro fuel
  induction fuel with
  | zero =>
    intro cs h
    have hnil : cs = [] := by cases cs with
      | nil => rfl
      | cons c t => simp at h
    subst hnil
    exact ⟨[[]], by simp [scanRawF], by simp, by simp [scanRawF, interleave],
      by simp [scanRawF]⟩
  | succ f ih =>
    intro cs h
    cases cs with
    | nil =>
      exact ⟨[[]], by simp [scanRawF], by simp, by simp [scanRawF, interleave],
        by simp [scanRawF]⟩
    | cons c t =>
      cases hm : matchAt (c :: t) with
      | some v =>
        obtain ⟨s, r, p⟩ := v
        obtain ⟨happ, hne⟩ := matchAt_spec (c :: t) s r p hm
        have hr : r.length ≤ f := by
          have hl := congrArg List.length happ
          simp only [List.length_append] at hl
          have hs1 : 1 ≤ s.length := by
            cases s with
            | nil => exact absurd rfl hne
            | cons a b => simp
          simp only [List.length_cons] at h hl
          omega
        obtain ⟨gaps, hlen, hsp, hint, hnn⟩ := ih r hr
        refine ⟨[] :: gaps, ?_, ?_, ?_, ?_⟩
        · simp [scanRawF, hm, hlen]
        · intro g hg
          rcases List.mem_cons.mp hg with hg1 | hg2
          · subst hg1; intro c hc; simp at hc
          · exact hsp g hg2
        · simp only [scanRawF, hm, List.map_cons, interleave, List.nil_append]
          rw [hint, happ]
        · intro sp hsp'
          simp only [scanRawF, hm, List.mem_cons] at hsp'
          rcases hsp' with h1 | h2
          · subst h1; exact hne
          · exact hnn sp h2
      | none =>
        have hc := matchAt_none c t hm
        have hstep : scanRawF (f + 1) (c :: t) = scanRawF f t := by
          simp [scanRawF, hm]
        have ht : t.length ≤ f := by simp only [List.length_cons] at h; omega
        obtain ⟨gaps, hlen, hsp, hint, hnn⟩ := ih t ht
        have hgne : ∃ g gs, gaps = g :: gs := by
          cases gaps with
          | nil => simp at hlen
          | cons g gs => exact ⟨g, gs, rfl⟩
        obtain ⟨g, gs, hgg⟩ := hgne
        subst hgg
        refine ⟨(c :: g) :: gs, ?_, ?_, ?_, ?_⟩
        · simpa [hstep] using hlen
        · intro g' hg'
          rcases List.mem_cons.mp hg' with h1 | h2
          · subst h1
            intro d hd
            rcases List.mem_cons.mp hd with h3 | h4
            · subst h3; exact hc
            · exact hsp g (by simp) d h4
          · exact hsp g' (by simp [h2])
        · rw [hstep, interleave_cons, hint]
        · rw [hstep]; exact hnn

/-- Claim C6: every non-whitespace character of the input is
classified into exactly one emitted item, in input order: the input
decomposes as an interleaving of all-whitespace gaps with the matched
spans (tokens and paragraph-break spans), which are therefore pairwise
non-overlapping nonempty substrings with nothing dropped or
duplicated. -/
theorem c6_lexer_coverage : ∀ cs : List Char,
    ∃ gaps : List (List Char),
      gaps.length = (tokenizeSpans cs).length + 1 ∧
      (∀ g ∈ gaps, ∀ c ∈ g, isSpaceChar c = true) ∧
      interleave gaps ((tokenizeSpans cs).map Prod.fst) = cs ∧
      ∀ sp ∈ tokenizeSpans cs, sp.1 ≠ [] :=
  fun cs => scanRawF_cover cs.length cs (le_refl _)

/-! ### Resolver: the lookahead scan -/

theorem allSome_map_some : ∀ l : List Strg, allSome (l.map some) = some l := by
  intro l
  induction l with
  | nil => rfl
  | cons a t ih => simp [allSome, ih]

theorem allSome_eq_some : ∀ (ts : List Tok) (ss : List Strg),
    allSome ts = some ss → ts = ss.map some := by
  intro ts
  induction ts with
  | nil => intro ss h; simp [allSome] at h; subst h; rfl
  | cons a t ih =>
    intro ss h
    cases a with
    | none => simp [allSome] at h
    | some s =>
      simp only [allSome, Option.map_eq_some'] at h
      obtain ⟨l, hl, hcons⟩ := h
      subst hcons
      simp [ih l hl]

theorem isPrefixOf_iff_exists {α : Type} [BEq α] [LawfulBEq α] :
    ∀ a b : List α, a.isPrefixOf b = true ↔ ∃ q, a ++ q = b := by
  intro a
  induction a with
  | nil => intro b; simp [List.isPrefixOf]
  | cons x xs ih =>
    intro b
    cases b with
    | nil => simp [List.isPrefixOf]
    | cons y ys =>
      simp only [List.isPrefixOf, Bool.and_eq_true, beq_iff_eq, ih,
        List.cons_append, List.cons.injEq]
      constructor
      · rintro ⟨hxy, q, hq⟩; exact ⟨q, hxy, hq⟩
      · rintro ⟨q, hxy, hq⟩; exact ⟨hxy, q, hq⟩

theorem isKey_iff (tbl : Tbl) (k : List Strg) :
    isKey tbl k = true ↔ ∃ kv ∈ tbl, kv.1 = k := by
  simp [isKey, List.any_eq_true]

theorem maxKeyLen_cons (a : List Strg × Strg) (t : Tbl) :
    maxKeyLen (a :: t) = max a.1.length (maxKeyLen t) := rfl

theorem length_le_maxKeyLen : ∀ (tbl : Tbl) (kv : List Strg × Strg),
    kv ∈ tbl → kv.1.length ≤ maxKeyLen tbl := by
  intro tbl
  induction tbl with
  | nil => intro kv h; simp at h
  | cons a t ih =>
    intro kv h
    rw [maxKeyLen_cons]
    rcases List.mem_cons.mp h with h1 | h2
    · subst h1; exact le_max_left _ _
    · exact le_trans (ih kv h2) (le_max_right _ _)

theorem inPrefixSet_of (tbl : Tbl) (kv : List Strg × Strg) (p q : List Strg)
    (hmem : kv ∈ tbl) (hne : p ≠ []) (happ : p ++ q = kv.1) :
    inPrefixSet tbl p = true := by
  have hpe : p.isEmpty = false := by
    cases p with
    | nil => exact absurd rfl hne
    | cons a b => rfl
  simp only [inPrefixSet, Bool.and_eq_true, List.any_eq_true, hpe,
    Bool.not_false, true_and]
  exact ⟨kv, hmem, (isPrefixOf_iff_exists p kv.1).mpr ⟨q, happ⟩⟩

theorem scanLoop_sound (tbl : Tbl) (s : Strg) (rest : List Tok) :
    ∀ (fuel i : Nat) (k : List Strg), scanLoop tbl s rest i fuel = some k →
      isKey tbl k = true ∧
        ∃ t, k = s :: t ∧ rest.take t.length = t.map some ∧ i + 1 ≤ t.length := by
  intro fuel
  induction fuel with
  | zero => intro i k h; simp [scanLoop] at h
  | succ f ih =>
    intro i k h
    simp only [scanLoop] at h
    split at h
    · next hle =>
      cases hall : allSome (rest.take (i + 1)) with
      | none => rw [hall] at h; simp at h
      | some peeked =>
        rw [hall] at h
        simp only at h
        split at h
        · simp at h
        · split at h
          · next hkey =>
            split at h
            · simp at h
            · simp only [Option.some.injEq] at h
              subst h
              have htk := allSome_eq_some _ _ hall
              have hlenp : peeked.length = i + 1 := by
                have hc := congrArg List.length htk
                simp only [List.length_take, List.length_map] at hc
                omega
              refine ⟨hkey, peeked, rfl, ?_, by omega⟩
              rw [hlenp]
              exact htk
          · obtain ⟨hkey, t, hk, htake, hlen⟩ := ih (i + 1) k h
            exact ⟨hkey, t, hk, htake, by omega⟩
    · simp at h

theorem scanLoop_completes (tbl : Tbl) (s : Strg) (t : List Strg) (ex : List Tok)
    (kv : List Strg × Strg) (hmem : kv ∈ tbl) (hkv : kv.1 = s :: t)
    (hmin : ∀ kv' ∈ tbl, matchesFrontB s (t.map some ++ ex) kv'.1 = true →
      2 ≤ kv'.1.length → t.length + 1 ≤ kv'.1.length) :
    ∀ (fuel i : Nat), i + 1 ≤ t.length → t.length ≤ i + fuel →
      scanLoop tbl s (t.map some ++ ex) i fuel = some (s :: t) := by
  intro fuel
  induction fuel with
  | zero => intro i h1 h2; exact absurd h1 (by omega)
  | succ f ih =>
    intro i h1 h2
    have hlen2 : i + 1 ≤ t.length + ex.length := by omega
    have htake : (List.map some t ++ ex).take (i + 1) = (t.take (i + 1)).map some := by
      rw [List.take_append_eq_append_take]
      have h0 : i + 1 - (List.map some t).length = 0 := by simp; omega
      rw [h0, List.take_zero, List.append_nil, ← List.map_take]
    have hpre : inPrefixSet tbl (s :: t.take (i + 1)) = true := by
      refine inPrefixSet_of tbl kv _ (t.drop (i + 1)) hmem (by simp) ?_
      rw [hkv, List.cons_append, List.take_append_drop]
    by_cases hfull : i + 1 = t.length
    · have hteq : t.take (i + 1) = t := by rw [hfull]; exact List.take_length t
      have hkey : isKey tbl (s :: t) = true := (isKey_iff tbl _).mpr ⟨kv, hmem, hkv⟩
      have him : i < (t.map some).length := by simp; omega
      have hget : ¬ (List.map some t ++ ex)[i]?.getD none = none := by
        rw [List.getElem?_append_left him]
        simp [List.getElem?_eq_getElem him]
      rw [hteq] at hpre
      simp only [scanLoop, List.getD_eq_getElem?_getD, htake, allSome_map_some, hteq]
      simp [hlen2, hpre, hkey, hget]
    · have hkeyf : isKey tbl (s :: t.take (i + 1)) = false := by
        cases hb : isKey tbl (s :: t.take (i + 1)) with
        | false => rfl
        | true =>
          exfalso
          obtain ⟨kv', hmem', hkv'⟩ := (isKey_iff tbl _).mp hb
          have hmf : matchesFrontB s (t.map some ++ ex) kv'.1 = true := by
            rw [hkv']
            simp only [matchesFrontB, beq_self_eq_true, Bool.true_and]
            refine (isPrefixOf_iff_exists _ _).mpr ⟨(t.drop (i + 1)).map some ++ ex, ?_⟩
            rw [← List.append_assoc, ← List.map_append, List.take_append_drop]
          have h2l : 2 ≤ kv'.1.length := by
            rw [hkv']; simp [List.length_take]; omega
          have hcon := hmin kv' hmem' hmf h2l
          rw [hkv'] at hcon
          simp [List.length_take] at hcon
          omega
      have hstep : scanLoop tbl s (t.map some ++ ex) i (f + 1) =
          scanLoop tbl s (t.map some ++ ex) (i + 1) f := by
        simp only [scanLoop, List.getD_eq_getElem?_getD, htake, allSome_map_some]
        simp [hlen2, hpre, hkeyf]
      rw [hstep]
      exact ih (i + 1) (by omega) (by omega)

/-! ### Resolver: totality and conservation of the input -/

theorem resolveF_chunks (tbl : Tbl) : ∀ (fuel : Nat) (w : Bool) (ts : List Tok),
    ts.length ≤ fuel →
    ∃ chunks : List (List Tok), chunks.flatten = ts ∧
      List.Forall₂ (chunkRel tbl) chunks (resolveF tbl fuel w ts) := by
  intro fuel
  induction fuel with
  | zero =>
    intro w ts h
    have hnil : ts = [] := List.length_eq_zero.mp (by omega)
    subst hnil
    exact ⟨[], rfl, by simp [resolveF]⟩
  | succ f ih =>
    intro w ts h
    cases ts with
    | nil => exact ⟨[], rfl, by simp [resolveF]⟩
    | cons tok rest =>
      have hrest : rest.length ≤ f := by simp at h; omega
      cases tok with
      | none =>
        cases rest with
        | nil =>
          refine ⟨[[none]], by simp, ?_⟩
          have hstep : resolveF tbl (f + 1) w [none] = [none] := by simp [resolveF]
          rw [hstep]
          exact List.Forall₂.cons (Or.inl rfl) List.Forall₂.nil
        | cons next rest2 =>
          have hsb : sbFlag w none next = false := by simp [sbFlag]
          have hstep : resolveF tbl (f + 1) w (none :: next :: rest2) =
              none :: resolveF tbl f false (next :: rest2) := by
            simp [resolveF, hsb]
          obtain ⟨chunks, hj, hf⟩ := ih false (next :: rest2) hrest
          refine ⟨[none] :: chunks, by simp [hj], ?_⟩
          rw [hstep]
          exact List.Forall₂.cons (Or.inl rfl) hf
      | some s =>
        cases hpb : inPrefixSet tbl [s] with
        | true =>
          cases hscan : scanLoop tbl s rest 0 (maxKeyLen tbl) with
          | some key =>
            obtain ⟨hkey, t, hk, htake, hlen1⟩ := scanLoop_sound tbl s rest _ _ _ hscan
            have hstep : resolveF tbl (f + 1) w (some s :: rest) =
                some (lookupRepl tbl key) ::
                  resolveF tbl f true (rest.drop (key.length - 1)) := by
              simp [resolveF, hpb, hscan]
            have hkl : key.length - 1 = t.length := by rw [hk]; simp
            have hdl : (rest.drop (key.length - 1)).length ≤ f := by
              simp [List.length_drop]; omega
            obtain ⟨chunks, hj, hf⟩ := ih true (rest.drop (key.length - 1)) hdl
            refine ⟨key.map some :: chunks, ?_, ?_⟩
            · rw [List.flatten_cons, hj, hkl, hk]
              simp only [List.map_cons, List.cons_append, List.cons.injEq, true_and]
              rw [← htake, List.take_append_drop]
            · rw [hstep]
              exact List.Forall₂.cons (Or.inr (Or.inr ⟨key, hkey, rfl, rfl⟩)) hf
          | none =>
            have hstep : resolveF tbl (f + 1) w (some s :: rest) =
                some s :: resolveF tbl f w rest := by
              simp [resolveF, hpb, hscan]
            obtain ⟨chunks, hj, hf⟩ := ih w rest hrest
            refine ⟨[some s] :: chunks, by simp [hj], ?_⟩
            rw [hstep]
            exact List.Forall₂.cons (Or.inl rfl) hf
        | false =>
          cases rest with
          | nil =>
            refine ⟨[[some s]], by simp, ?_⟩
            have hstep : resolveF tbl (f + 1) w [some s] = [some s] := by
              simp [resolveF, hpb]
            rw [hstep]
            exact List.Forall₂.cons (Or.inl rfl) List.Forall₂.nil
          | cons next rest2 =>
            obtain ⟨chunks, hj, hf⟩ := ih false (next :: rest2) hrest
            cases hsb : sbFlag w (some s) next with
            | true =>
              have hstep : resolveF tbl (f + 1) w (some s :: next :: rest2) =
                  some s :: none :: resolveF tbl f false (next :: rest2) := by
                simp [resolveF, hpb, hsb]
              refine ⟨[some s] :: [] :: chunks, by simp [hj], ?_⟩
              rw [hstep]
              exact List.Forall₂.cons (Or.inl rfl)
                (List.Forall₂.cons (Or.inr (Or.inl ⟨rfl, rfl⟩)) hf)
            | false =>
              have hstep : resolveF tbl (f + 1) w (some s :: next :: rest2) =
                  some s :: resolveF tbl f false (next :: rest2) := by
                simp [resolveF, hpb, hsb]
              refine ⟨[some s] :: chunks, by simp [hj], ?_⟩
              rw [hstep]
              exact List.Forall₂.cons (Or.inl rfl) hf

/-! ### Resolver: empty table, and the grouper -/

theorem resolveF_empty_eq_spec : ∀ (fuel : Nat) (ts : List Tok), ts.length ≤ fuel →
    resolveF [] fuel false ts = specResolverEmptyTable ts := by
  intro fuel
  induction fuel with
  | zero =>
    intro ts h
    have hnil : ts = [] := List.length_eq_zero.mp (by omega)
    subst hnil
    simp [resolveF, specResolverEmptyTable]
  | succ f ih =>
    intro ts h
    cases ts with
    | nil => simp [resolveF, specResolverEmptyTable]
    | cons tok rest =>
      cases rest with
      | nil =>
        cases tok with
        | none => simp [resolveF, specResolverEmptyTable]
        | some s => simp [resolveF, specResolverEmptyTable, inPrefixSet]
      | cons next rest2 =>
        have hr : (next :: rest2).length ≤ f := by simp at h; simp; omega
        have ihx := ih (next :: rest2) hr
        cases tok with
        | none => simp [resolveF, specResolverEmptyTable, sbFlag, sbPure, ihx]
        | some s =>
          have hsb : sbFlag false (some s) next = sbPure (some s) next := by
            cases next <;> simp [sbFlag, sbPure]
          simp only [resolveF, specResolverEmptyTable, inPrefixSet, hsb, ihx,
            List.head?_cons, List.any_nil, Bool.and_false, Bool.false_eq_true,
            if_false]
          split <;> rfl

theorem spec_sublist : ∀ ts : List Tok, List.Sublist ts (specResolverEmptyTable ts)
  | [] => by simp [specResolverEmptyTable]
  | [t] => by simp [specResolverEmptyTable]
  | t :: next :: rest => by
    have ih := spec_sublist (next :: rest)
    simp only [specResolverEmptyTable]
    split
    · exact List.Sublist.cons₂ t (List.Sublist.cons none ih)
    · exact List.Sublist.cons₂ t ih

theorem spec_filter : ∀ ts : List Tok,
    (specResolverEmptyTable ts).filter (fun x => x.isSome) =
      ts.filter (fun x => x.isSome)
  | [] => rfl
  | [t] => rfl
  | t :: next :: rest => by
    have ih := spec_filter (next :: rest)
    simp only [specResolverEmptyTable]
    split
    · simp [List.filter_cons, ih]
    · simp [List.filter_cons, ih]

theorem groupGo_ne_nil : ∀ (ts : List Tok) (acc : List Strg) (s : List Strg),
    s ∈ groupGo acc ts → s ≠ [] := by
  intro ts
  induction ts with
  | nil =>
    intro acc s h
    simp only [groupGo] at h
    split at h
    · simp at h
    · next hne =>
      simp at h
      subst h
      simpa using hne
  | cons tok rest ih =>
    intro acc s h
    cases tok with
    | none =>
      simp only [groupGo] at h
      split at h
      · exact ih [] s h
      · next hne =>
        rcases List.mem_cons.mp h with h1 | h2
        · subst h1; simpa using hne
        · exact ih [] s h2
    | some tk =>
      simp only [groupGo] at h
      exact ih (acc ++ [tk]) s h

/-! ### The claims -/

/-- Claim C1: with the table `("Dr", ".") ↦ "Dr."`, the full pipeline
on `"Dr. Andersson kom."` produces exactly one sentence
`["Dr.", "Andersson", "kom", "."]`: no sentence break is emitted after
the folded abbreviation. -/
theorem c1_abbreviation_suppression :
    pipeline drTbl (cls "Dr. Andersson kom.") =
      [[cls "Dr.", cls "Andersson", cls "kom", cls "."]] := by decide

/-- Claim C2 counterexample: with two keys sharing a prefix and an
input stream matching both, the lookahead scan does not continue to
the longer key: the resolver emits the shorter key's replacement
`"t."` and never the longer key's `"t.ex."`. -/
theorem c2_counterexample_first_match_wins :
    joinAbbrevs nestedTbl
        [some (cls "t"), some (cls "."), some (cls "ex"), some (cls ".")] =
      [some (cls "t."), some (cls "ex"), some (cls ".")] ∧
    some (cls "t.ex.") ∉ joinAbbrevs nestedTbl
        [some (cls "t"), some (cls "."), some (cls "ex"), some (cls ".")] := by
  decide

/-- Claim C2, amended: the scan stops at the first exact key match, so
among the keys of length at least 2 that fully match the stream, the
shortest one wins and is returned by the lookahead loop. -/
theorem c2_amended_shortest_match_wins (tbl : Tbl) (s : Strg) (rest : List Tok)
    (k : List Strg)
    (hkey : isKey tbl k = true)
    (hm : matchesFrontB s rest k = true)
    (h2 : 2 ≤ k.length)
    (hmin : ∀ kv ∈ tbl, matchesFrontB s rest kv.1 = true → 2 ≤ kv.1.length →
      k.length ≤ kv.1.length) :
    scanLoop tbl s rest 0 (maxKeyLen tbl) = some k := by
  cases k with
  | nil => simp [matchesFrontB] at hm
  | cons s0 t =>
    simp only [matchesFrontB, Bool.and_eq_true, beq_iff_eq] at hm
    obtain ⟨hs0, hp⟩ := hm
    subst hs0
    obtain ⟨ex, hex⟩ := (isPrefixOf_iff_exists _ _).mp hp
    obtain ⟨kv, hmem, hkv⟩ := (isKey_iff tbl _).mp hkey
    subst hex
    refine scanLoop_completes tbl s0 t ex kv hmem hkv ?_ (maxKeyLen tbl) 0 ?_ ?_
    · intro kv' hmem' hmf h2l
      simpa using hmin kv' hmem' hmf h2l
    · simp at h2; omega
    · have hml := length_le_maxKeyLen tbl kv hmem
      rw [hkv] at hml
      simp at hml
      omega

theorem c2_amended_witness :
    scanLoop nestedTbl (cls "t")
        [some (cls "."), some (cls "ex"), some (cls ".")] 0 (maxKeyLen nestedTbl) =
      some [cls "t", cls "."] :=
  c2_amended_shortest_match_wins nestedTbl (cls "t")
    [some (cls "."), some (cls "ex"), some (cls ".")] [cls "t", cls "."]
    (by decide) (by decide) (by decide) (by decide)

/-- Claim C3: the override that should keep a sentence-final period
out of an abbreviation never fires (it compares the trigger token with
`"."` and the last matched item with `None`, both impossible at a
match), so on input `"se Dr."` the code folds the trailing period into
`"Dr."` instead of emitting it as a separate token. -/
theorem c3_sentence_final_period_folded :
    pipeline drTbl (cls "se Dr.") = [[cls "se", cls "Dr."]] := by decide

/-- Claim C4 counterexample: `"Hej."` is a prefix hit of the table key
`("Hej.", "X")` but no key matches, the next token `"Stockholm"`
starts uppercase and `"Hej."` ends in a period, yet the resolver emits
no sentence-break marker, because the boundary heuristic is skipped on
the prefix-hit branch. -/
theorem c4_counterexample_no_marker :
    joinAbbrevs hejTbl [some (cls "Hej."), some (cls "Stockholm")] =
      [some (cls "Hej."), some (cls "Stockholm")] ∧
    none ∉ joinAbbrevs hejTbl [some (cls "Hej."), some (cls "Stockholm")] := by
  decide

/-- Claim C4, amended: the sentence-boundary heuristic runs, and the
suppression flag is reset, only when the emitted token is not a prefix
hit; on a prefix hit with no exact match the token is emitted
unchanged with no boundary check and the flag keeps its value. -/
theorem c4_amended_heuristic_branches (tbl : Tbl) (fuel : Nat) (w : Bool)
    (s : Strg) (rest : List Tok) :
    (inPrefixSet tbl [s] = true →
      scanLoop tbl s rest 0 (maxKeyLen tbl) = none →
      resolveF tbl (fuel + 1) w (some s :: rest) =
        some s :: resolveF tbl fuel w rest) ∧
    (inPrefixSet tbl [s] = false →
      resolveF tbl (fuel + 1) w (some s :: rest) =
        some s :: (match rest.head? with
          | none => []
          | some next =>
            if sbFlag w (some s) next then none :: resolveF tbl fuel false rest
            else resolveF tbl fuel false rest)) := by
  constructor
  · intro h1 h2
    simp [resolveF, h1, h2]
  · intro h1
    simp [resolveF, h1]

theorem c4_amended_witness :
    resolveF hejTbl 2 false [some (cls "Hej."), some (cls "Stockholm")] =
      some (cls "Hej.") :: resolveF hejTbl 1 false [some (cls "Stockholm")] :=
  (c4_amended_heuristic_branches hejTbl 1 false (cls "Hej.")
    [some (cls "Stockholm")]).1 (by decide) (by decide)

/-- Claim C5: the resolver is total over finite streams and loses no
input: for every table and stream, the input splits into consecutive
chunks matched one-to-one (in order) with the emitted items, where a
passthrough item accounts for itself, an inserted marker for nothing,
and a folded abbreviation for the whole matched key.  In particular a
peek past the end of the input only truncates the current attempt and
every input token is still emitted or folded, never dropped. -/
theorem c5_resolver_totality (tbl : Tbl) (ts : List Tok) :
    ∃ chunks : List (List Tok), chunks.flatten = ts ∧
      List.Forall₂ (chunkRel tbl) chunks (joinAbbrevs tbl ts) :=
  resolveF_chunks tbl ts.length false ts (le_refl _)

/-- Claim C7: every sentence the grouper emits is nonempty; a marker
with an empty accumulator (at stream start or consecutive) produces no
output, a marker with a nonempty accumulator emits exactly it, and at
stream end a final sentence appears iff the accumulator is
nonempty. -/
theorem c7_grouper_no_empty_sentences (ts : List Tok) (acc : List Strg)
    (a : Strg) (rest : List Tok) :
    (∀ s ∈ groupSentences ts, s ≠ []) ∧
    groupGo [] (none :: rest) = groupGo [] rest ∧
    groupGo (a :: acc) (none :: rest) = (a :: acc) :: groupGo [] rest ∧
    groupGo (a :: acc) [] = [a :: acc] ∧
    groupGo [] ([] : List Tok) = [] := by
  refine ⟨fun s hs => groupGo_ne_nil ts [] s hs, ?_, ?_, ?_, rfl⟩
  · simp [groupGo]
  · simp [groupGo]
  · simp [groupGo]

/-- Claim C8: with the empty table the resolver is a pure passthrough
plus the boundary heuristic: it equals the resolver modelled from the
spec's words, every input item survives unchanged and in order, and
the only additions are `None` markers. -/
theorem c8_empty_table_passthrough (ts : List Tok) :
    joinAbbrevs [] ts = specResolverEmptyTable ts ∧
    List.Sublist ts (joinAbbrevs [] ts) ∧
    (joinAbbrevs [] ts).filter (fun x => x.isSome) =
      ts.filter (fun x => x.isSome) := by
  have he : joinAbbrevs [] ts = specResolverEmptyTable ts := by
    simpa [joinAbbrevs] using resolveF_empty_eq_spec ts.length ts (le_refl _)
  refine ⟨he, ?_, ?_⟩
  · rw [he]; exact spec_sublist ts
  · rw [he]; exact spec_filter ts

/-- Claim C9: `"2024-01-15"` and `"10:30"` each come out as one single
token, with `"kl"`, the period after it and the final period as
separate tokens. -/
theorem c9_numeric_token_cohesion :
    tokenize (cls "Mötet är 2024-01-15 kl. 10:30.") =
      [some (cls "Mötet"), some (cls "är"), some (cls "2024-01-15"),
       some (cls "kl"), some (cls "."), some (cls "10:30"), some (cls ".")] := by
  decide

/-- Claim C10: every candidate the lookahead loop can return consists
of the trigger token plus at least one peeked item, so a returned key
always has length at least 2 and a single-token key can never be
folded. -/
theorem c10_no_single_token_fold (tbl : Tbl) (s : Strg) (rest : List Tok)
    (i fuel : Nat) (k : List Strg)
    (h : scanLoop tbl s rest i fuel = some k) : 2 ≤ k.length := by
  obtain ⟨-, t, hk, -, hlen⟩ := scanLoop_sound tbl s rest fuel i k h
  rw [hk]
  simp
  omega

theorem c10_witness : 2 ≤ ([cls "Dr", cls "."] : List Strg).length :=
  c10_no_single_token_fold drTbl (cls "Dr") [some (cls ".")] 0
    (maxKeyLen drTbl) [cls "Dr", cls "."] (by decide)
